import Mathlib

/-!
Verification of the chat-to-invoice extraction core of the `Go-Backend`
repository (`app/services/chat_parser.py`), as a shallow embedding in Lean.

Modelling conventions:

* Python strings are `List Char`; the embedding covers the ASCII fragment of
  Python's case mapping, whitespace and word/letter character classes, which
  is the fragment the program's regexes and normalisation exercise.
* Python `int` is `Int` (arbitrary precision, as in Python); Python `float`
  is modelled by `Rat` (real-valued semantics of the arithmetic the source
  performs; `round(x, 2)` is round-half-even at two decimals, `int(x)` is
  truncation toward zero).
* Fallible Python code (statements that can raise) is modelled with
  `Except String`; the string is the exception message.
* The network interaction of the AI extraction attempt loop is summarised by
  an oracle parameter `aiItems`: the value the loop leaves in the local
  variable `items` (the empty list when every attempt failed or the model
  returned nothing).
-/

namespace ChatParser

/-! ## ASCII character classes and case mapping (CPython semantics, ASCII fragment) -/

/-- `A`–`Z`. -/
def isUpperA (c : Char) : Bool := decide (65 ≤ c.toNat ∧ c.toNat ≤ 90)

/-- `a`–`z`. -/
def isLowerA (c : Char) : Bool := decide (97 ≤ c.toNat ∧ c.toNat ≤ 122)

/-- ASCII letter, the class `[a-zA-Z]` of the item regex. -/
def isAlphaA (c : Char) : Bool := isUpperA c || isLowerA c

/-- ASCII digit, the class `\d`. -/
def isDigitA (c : Char) : Bool := decide (48 ≤ c.toNat ∧ c.toNat ≤ 57)

/-- Python whitespace (`\s`, `str.strip`): space, `\t`, `\n`, `\r`, `\x0b`, `\x0c`. -/
def isPyWs (c : Char) : Bool :=
  decide (c.toNat = 32 ∨ c.toNat = 9 ∨ c.toNat = 10 ∨ c.toNat = 13 ∨ c.toNat = 11 ∨ c.toNat = 12)

/-- Python word character `\w` (ASCII fragment): letter, digit or underscore. -/
def isWordA (c : Char) : Bool := isAlphaA c || isDigitA c || decide (c.toNat = 95)

/-- ASCII lower-casing, as in CPython for ASCII input. -/
def toLowerA (c : Char) : Char :=
  if 65 ≤ c.toNat ∧ c.toNat ≤ 90 then Char.ofNat (c.toNat + 32) else c

/-- ASCII upper-casing, as in CPython for ASCII input. -/
def toUpperA (c : Char) : Char :=
  if 97 ≤ c.toNat ∧ c.toNat ≤ 122 then Char.ofNat (c.toNat - 32) else c

/-! ## `str.strip`, `str.title`, `str.lower` -/

/-- `str.strip()`: drop leading and trailing whitespace. -/
def pyStrip (l : List Char) : List Char :=
  ((l.dropWhile isPyWs).reverse.dropWhile isPyWs).reverse

/-- One character of `str.title()`: `prev` records whether the previous
character was a (ASCII) letter; a letter starting a word is upper-cased,
letters inside a word are lower-cased, other characters pass through. -/
def titleChar (prev : Bool) (c : Char) : Char :=
  if isAlphaA c then (if prev then toLowerA c else toUpperA c) else c

/-- The state-passing loop of `str.title()`. -/
def titleGo : Bool → List Char → List Char
  | _, [] => []
  | prev, c :: cs => titleChar prev c :: titleGo (isAlphaA c) cs

/-- `str.title()` (ASCII fragment). -/
def pyTitle (l : List Char) : List Char := titleGo false l

/-- `str.lower()` (ASCII fragment). -/
def lowerList (l : List Char) : List Char := l.map toLowerA

/-! ## Numeric coercions: `int(...)`, `float(...)`, `round(x, 2)` -/

/-- Numeric value of a digit string. -/
def digitsVal (l : List Char) : Nat :=
  l.foldl (fun a c => a * 10 + (c.toNat - 48)) 0

/-- `int(s)` for a string `s`: optional surrounding whitespace, optional
sign, then a nonempty run of digits; anything else raises `ValueError`.
(Underscore digit separators and non-ASCII digits are not modelled; no
claim exercises them.) -/
def strToInt (l : List Char) : Option Int :=
  match pyStrip l with
  | '+' :: ds => if !ds.isEmpty && ds.all isDigitA then some (digitsVal ds) else none
  | '-' :: ds => if !ds.isEmpty && ds.all isDigitA then some (-(digitsVal ds : Int)) else none
  | ds => if !ds.isEmpty && ds.all isDigitA then some (digitsVal ds) else none

/-- Unsigned part of a `float(s)` string literal: digits with at most one
decimal point and at least one digit. -/
def strToFloatMag (t : List Char) : Option Rat :=
  let ip := t.takeWhile isDigitA
  match t.drop ip.length with
  | [] => if ip.isEmpty then none else some (digitsVal ip : Rat)
  | '.' :: fp =>
    if fp.all isDigitA && (!ip.isEmpty || !fp.isEmpty) then
      some ((digitsVal ip : Rat) + (digitsVal fp : Rat) / ((10 : Rat) ^ fp.length))
    else none
  | _ => none

/-- `float(s)` for a string `s`: optional surrounding whitespace, optional
sign, digits with at most one decimal point and at least one digit.
(Exponent notation and `inf`/`nan` literals are not modelled; no claim
exercises them.) -/
def strToFloat (l : List Char) : Option Rat :=
  match pyStrip l with
  | '+' :: t => strToFloatMag t
  | '-' :: t => (strToFloatMag t).map (fun q => -q)
  | t => strToFloatMag t

/-- `int(x)` for a float `x`: truncation toward zero. -/
def pyTrunc (q : Rat) : Int := if 0 ≤ q then q.floor else q.ceil

/-- Round-half-even to an integer, as Python's `round`. -/
def roundHalfEven (q : Rat) : Int :=
  if q - q.floor < 1/2 then q.floor
  else if 1/2 < q - q.floor then q.floor + 1
  else if q.floor % 2 = 0 then q.floor else q.floor + 1

/-- `round(x, 2)`: round-half-even at two decimal places. -/
def pyRound2 (q : Rat) : Rat := (roundHalfEven (q * 100) : Rat) / 100

/-! ## Loosely-typed Python values and the built-in coercions -/

/-- The Python values that can sit in a field of a raw item dict.
(Nested containers are omitted: for `str`/`int`/`float` coercion they
behave like `vNone` — a `TypeError` — and no claim exercises them.) -/
inductive PyVal where
  | vNone
  | vInt (n : Int)
  | vFloat (q : Rat)
  | vStr (s : List Char)
deriving Repr, DecidableEq

/-- Decimal rendering of a float, used only by `str()` on a float value.
(Python's shortest-round-trip `repr` is not modelled: the value only ever
becomes an item *name*, and no claim has a float in the name position.) -/
def floatRepr (q : Rat) : List Char :=
  if q.den = 1 then (toString q.num).toList ++ ['.', '0']
  else (toString q.num).toList ++ ['/'] ++ (toString (q.den : Int)).toList

/-- Python `str(x)`: total, never raises. -/
def pyStr : PyVal → List Char
  | .vNone => ['N', 'o', 'n', 'e']
  | .vInt n => (toString n).toList
  | .vFloat q => floatRepr q
  | .vStr s => s

/-- Python `int(x)`: identity on ints, truncation on floats, literal parse
on strings (`ValueError` on failure), `TypeError` otherwise. -/
def pyInt : PyVal → Except String Int
  | .vInt n => .ok n
  | .vFloat q => .ok (pyTrunc q)
  | .vStr s =>
    match strToInt s with
    | some n => .ok n
    | none => .error "ValueError: invalid literal for int() with base 10"
  | .vNone => .error "TypeError: int() argument must be a string or a real number, not NoneType"

/-- Python `float(x)`: identity on floats, exact on ints, literal parse on
strings (`ValueError` on failure), `TypeError` otherwise. -/
def pyFloat : PyVal → Except String Rat
  | .vFloat q => .ok q
  | .vInt n => .ok (n : Rat)
  | .vStr s =>
    match strToFloat s with
    | some q => .ok q
    | none => .error "ValueError: could not convert string to float"
  | .vNone => .error "TypeError: float() argument must be a string or a real number, not NoneType"

/-- A raw extracted entry, as it appears in the `items` list before the
final cleansing loop: either not a dict at all (`isinstance(i, dict)` is
false), or a dict with the three relevant keys, each possibly absent. -/
inductive RawItem where
  | atom (v : PyVal)
  | record (item quantity price : Option PyVal)
deriving Repr, DecidableEq

/-- A cleansed line item `{"item": name, "quantity": qty, "price": price}`. -/
structure Item where
  item : List Char
  quantity : Int
  price : Rat
deriving Repr, DecidableEq

/-! ## Final cleansing and deduplication (`chat_parser.py` lines 139–153) -/

/-- `str(i.get("item", "Custom Item")).strip().title()`. -/
def normName (v : PyVal) : List Char := pyTitle (pyStrip (pyStr v))

/-- One iteration of the cleansing loop up to the coercions:
`none` means the entry was skipped (`continue`), `error` means one of the
`int`/`float` calls raised. -/
def coerceEntry : RawItem → Except String (Option (List Char × Int × Rat))
  | .atom _ => .ok none
  | .record itm qty pr => do
    let name := normName (itm.getD (.vStr ['C', 'u', 's', 't', 'o', 'm', ' ', 'I', 't', 'e', 'm']))
    let q ← pyInt (qty.getD (.vInt 1))
    let p ← pyFloat (pr.getD (.vFloat 0))
    return some (name, q, p)

/-- The deduplication loop. `acc` is the `deduplicated` dict: a Python 3.7+
dict keyed by the name preserves first-insertion order, so it is modelled
as a list of items with pairwise-distinct names, updated in place. -/
def dedupeAux : List RawItem → List Item → Except String (List Item)
  | [], acc => .ok acc
  | e :: rest, acc =>
    match coerceEntry e with
    | .error msg => .error msg
    | .ok none => dedupeAux rest acc
    | .ok (some (n, q, p)) =>
      if acc.any (fun it => it.item == n) then
        dedupeAux rest (acc.map fun it =>
          if it.item == n then
            { it with quantity := it.quantity + q, price := if p > 0 then p else it.price }
          else it)
      else
        dedupeAux rest (acc ++ [⟨n, q, p⟩])

/-- The final cleansing & deduplication step of `parse_chats`
(`list(deduplicated.values())`). -/
def dedupe (raws : List RawItem) : Except String (List Item) := dedupeAux raws []

/-- An output item of `dedupe`, viewed again as a raw dict (its fields are
a `str`, an `int` and a `float`), for feeding the output back in. -/
def rawOfItem (it : Item) : RawItem :=
  .record (some (.vStr it.item)) (some (.vInt it.quantity)) (some (.vFloat it.price))

/-! ## The regex fallback extractor (`chat_parser.py` lines 102–136)

The two regexes and the `re.sub` pattern are embedded as character-level
matchers with Python's leftmost-match, greedy/lazy and ordered-alternation
semantics on the ASCII classes involved. -/

/-- Is `pat` a substring (Python `in`)? -/
def hasSub (pat : List Char) : List Char → Bool
  | [] => pat.isEmpty
  | c :: rest => pat.isPrefixOf (c :: rest) || hasSub pat rest

/-- The currency/total tokens of the price regex, in the source's
alternation order: `rps|rs|inr|rupees|bucks|total`. -/
def currencyTokens : List (List Char) :=
  ["rps".toList, "rs".toList, "inr".toList, "rupees".toList, "bucks".toList, "total".toList]

/-- After the digits of a candidate price: `\s*` then one of the currency
tokens, case-insensitively (`re.I`). The tokens start with letters, so the
greedy `\s*` never needs to backtrack. -/
def tokenAfter (l : List Char) : Bool :=
  currencyTokens.any (fun t => t.isPrefixOf (lowerList (l.dropWhile isPyWs)))

/-- Try `(\d+(?:,\d+)?)\s*(?:rps|rs|inr|rupees|bucks|total)` at the head of
`l`; on success return the numeric value of group 1 with the comma removed
(`float(price_match.group(1).replace(',', ''))`). The optional comma group
is greedy: it is tried first and dropped on failure of the rest. -/
def numAt (l : List Char) : Option Nat :=
  let d1 := l.takeWhile isDigitA
  if d1.isEmpty then none
  else
    let r1 := l.drop d1.length
    let withComma : Option Nat :=
      match r1 with
      | ',' :: r2 =>
        let d2 := r2.takeWhile isDigitA
        if d2.isEmpty then none
        else if tokenAfter (r2.drop d2.length) then some (digitsVal (d1 ++ d2)) else none
      | _ => none
    match withComma with
    | some v => some v
    | none => if tokenAfter r1 then some (digitsVal d1) else none

/-- `re.search` of the price pattern: leftmost match wins. -/
def priceSearch : List Char → Option Nat
  | [] => none
  | c :: rest =>
    match numAt (c :: rest) with
    | some v => some v
    | none => priceSearch rest

/-- The character class `[a-zA-Z\s]` of the item regex. -/
def classChar (c : Char) : Bool := isAlphaA c || isPyWs c

/-- Branch `(\d+)\s+([a-zA-Z\s]{3,20})` of the item regex, with the greedy
`\s+` backtracking from `w` spaces down to one (whitespace is also in the
following class, so a shorter `\s+` can enable the class to reach three
characters). Returns `(quantity digits value, name group, match length)`. -/
def b1Go (ds l1 : List Char) : Nat → Option (Nat × List Char × Nat)
  | 0 => none
  | w + 1 =>
    let l2 := l1.drop (w + 1)
    let cls := (l2.takeWhile classChar).take 20
    if 3 ≤ cls.length then some (digitsVal ds, cls, ds.length + (w + 1) + cls.length)
    else b1Go ds l1 w

/-- Try the first branch of the item regex at the head of `l`. The greedy
`\d+` never backtracks (a digit can satisfy neither `\s+` nor the tokens),
and the final `{3,20}` class is greedy with nothing after it. -/
def branch1 (l : List Char) : Option (Nat × List Char × Nat) :=
  let ds := l.takeWhile isDigitA
  if ds.isEmpty then none
  else
    let l1 := l.drop ds.length
    b1Go ds l1 (l1.takeWhile isPyWs).length

/-- Inner loop of the second branch: after a name candidate of length `c`,
the greedy `\s+` backtracks from `w` spaces down to one looking for `\d+`. -/
def b2Ws (nm l2 : List Char) (c : Nat) : Nat → Option (Nat × List Char × Nat)
  | 0 => none
  | w + 1 =>
    let ds := (l2.drop (w + 1)).takeWhile isDigitA
    if ds.isEmpty then b2Ws nm l2 c w
    else some (digitsVal ds, nm, c + (w + 1) + ds.length)

/-- Branch `([a-zA-Z\s]{3,20})\s+(\d+)` of the item regex: the greedy name
class backtracks from `c` characters down to three. -/
def b2Go (l : List Char) : Nat → Option (Nat × List Char × Nat)
  | 0 => none
  | c + 1 =>
    if c + 1 < 3 then none
    else
      let l2 := l.drop (c + 1)
      match b2Ws (l.take (c + 1)) l2 (c + 1) (l2.takeWhile isPyWs).length with
      | some r => some r
      | none => b2Go l c

/-- Try the second branch of the item regex at the head of `l`. -/
def branch2 (l : List Char) : Option (Nat × List Char × Nat) :=
  b2Go l (min 20 (l.takeWhile classChar).length)

/-- One attempt of the full alternation at the head of `l`: Python tries
the first branch, then the second. -/
def itemMatchAt (l : List Char) : Option (Nat × List Char × Nat) :=
  match branch1 l with
  | some r => some r
  | none => branch2 l

/-- `re.findall` of the item regex: scan left to right, taking
non-overlapping leftmost matches and resuming after each match. Matches
are at least five characters long, so `l.length` steps of fuel suffice. -/
def findAllGo : Nat → List Char → List (Nat × List Char)
  | 0, _ => []
  | _ + 1, [] => []
  | fuel + 1, c :: rest =>
    match itemMatchAt (c :: rest) with
    | some (q, nm, len) => (q, nm) :: findAllGo fuel (List.drop len (c :: rest))
    | none => findAllGo fuel rest

/-- All matches of the item regex in a message. -/
def findAllMatches (l : List Char) : List (Nat × List Char) := findAllGo l.length l

/-! ### Stripping the `[time] sender (...)` tag: `re.sub(r'\[.*?\] \w+ \(.*?\): ', '', msg)` -/

/-- Lazy `.*?` up to `')' ': '`: the shortest prefix of non-newline
characters followed by `): ` wins; on failure of the continuation the lazy
group consumes the candidate `)` and retries. Returns characters consumed
including `): `. -/
def tsClose : List Char → Option Nat
  | ')' :: ':' :: ' ' :: _ => some 3
  | c :: rest => if c = '\n' then none else (tsClose rest).map (· + 1)
  | [] => none

/-- Continuation after the `]` of the tag pattern: `' ' \w+ ' ' '(' .*? ')' ': '`.
The greedy `\w+` needs no backtracking: the following character is a space,
which is not a word character. -/
def tsCont (l : List Char) : Option Nat :=
  match l with
  | ' ' :: r1 =>
    let ws := r1.takeWhile isWordA
    if ws.isEmpty then none
    else
      match r1.drop ws.length with
      | ' ' :: '(' :: r2 => (tsClose r2).map (fun k => 1 + ws.length + 2 + k)
      | _ => none
  | _ => none

/-- Lazy `.*?` up to `']'` followed by the rest of the tag pattern, with
retry at every later `]` when the continuation fails. -/
def tsBody : List Char → Option Nat
  | [] => none
  | c :: rest =>
    if c = ']' then
      match tsCont rest with
      | some k => some (1 + k)
      | none => (tsBody rest).map (· + 1)
    else if c = '\n' then none
    else (tsBody rest).map (· + 1)

/-- Try the whole tag pattern at the head of `l`; returns the match length. -/
def matchTsAt (l : List Char) : Option Nat :=
  match l with
  | '[' :: rest => (tsBody rest).map (· + 1)
  | _ => none

/-- `re.sub` loop: replace every non-overlapping leftmost match by the
empty string, resuming after each match. Matches are nonempty, so
`l.length` steps of fuel suffice. -/
def stripTsGo : Nat → List Char → List Char
  | 0, l => l
  | _ + 1, [] => []
  | fuel + 1, c :: rest =>
    match matchTsAt (c :: rest) with
    | some k => stripTsGo fuel (List.drop k (c :: rest))
    | none => c :: stripTsGo fuel rest

/-- `clean_msg = re.sub(r'\[.*?\] \w+ \(.*?\): ', '', msg)`. -/
def stripTs (l : List Char) : List Char := stripTsGo l.length l

/-! ### Assembling the fallback -/

/-- The conversational-filler stoplist, in source order. -/
def stopWords : List (List Char) :=
  ["placed".toList, "hello".toList, "hi".toList, "how much".toList, "total".toList]

/-- A candidate product found by the item regex: `{"name": ..., "qty": ...}`. -/
structure FoundProd where
  name : List Char
  qty : Nat
deriving Repr, DecidableEq

/-- Products extracted from one message: strip the tag, skip the message if
it contains a stop word (Python `in` on the lower-cased text), then keep
each regex match whose stripped name has more than two characters, with the
name title-cased. -/
def msgProducts (msg : List Char) : List FoundProd :=
  let clean := stripTs msg
  if stopWords.any (fun w => hasSub w (lowerList clean)) then []
  else
    (findAllMatches clean).filterMap fun m =>
      let n := pyStrip m.2
      if 2 < n.length then some ⟨pyTitle n, m.1⟩ else none

/-- `found_products` accumulated over all messages. -/
def foundProducts (messages : List (List Char)) : List FoundProd :=
  (messages.map msgProducts).flatten

/-- `chat_text = " ".join(chat_messages)`. -/
def joinSpace (messages : List (List Char)) : List Char :=
  List.intercalate [' '] messages

/-- `total_price`: the first price-pattern match in the joined text, else 0. -/
def totalPriceOf (messages : List (List Char)) : Rat :=
  match priceSearch (joinSpace messages) with
  | some n => (n : Rat)
  | none => 0

/-- `price_per_item` of the fallback: the aggregate price divided evenly
over the number of match slots when the aggregate price is positive, and
the flat default 100.0 otherwise (`total_price / len(found_products) if
total_price > 0 else 100.0`). -/
def slotShare (messages : List (List Char)) : Rat :=
  if totalPriceOf messages > 0
  then totalPriceOf messages / ((foundProducts messages).length : Rat)
  else 100

/-- The raw item dicts produced by the regex fallback (lines 126–136):
if no product matched, a single `"Order Items"` placeholder priced at the
aggregate price (or 100.0 when the aggregate price is falsy,
`total_price or 100.0`); otherwise one dict per match slot, priced at the
slot share divided by the slot's quantity and rounded to two decimals
(share taken as-is on quantity 0). -/
def fallbackItems (messages : List (List Char)) : List RawItem :=
  if (foundProducts messages).isEmpty then
    [RawItem.record (some (.vStr "Order Items".toList)) (some (.vInt 1))
      (some (.vFloat (if totalPriceOf messages = 0 then 100 else totalPriceOf messages)))]
  else
    (foundProducts messages).map fun itm =>
      RawItem.record (some (.vStr itm.name)) (some (.vInt (itm.qty : Int)))
        (some (.vFloat (if 0 < itm.qty then pyRound2 (slotShare messages / (itm.qty : Rat))
          else slotShare messages)))

/-! ## The orchestrator `parse_chats` and the totals calculator -/

/-- The message `raise Exception(...)` at the top of `parse_chats`. -/
def apiKeyErrMsg : String := "OpenRouter API Key missing. Check your .env file."

/-- `parse_chats`. `apiKey` is `Config.OPENROUTER_API_KEY` (external
configuration); `aiItems` is the oracle for the AI attempt loop: the value
of `items` after the loop (empty whenever every attempt failed, timed out,
returned malformed JSON or an empty array). With the key absent the
function raises before any extraction; otherwise the regex fallback runs
exactly when `aiItems` is empty, and either list is deduplicated. -/
def parse_chats (apiKey : Option (List Char)) (aiItems : List RawItem)
    (messages : List (List Char)) : Except String (List Item) :=
  match apiKey with
  | none => .error apiKeyErrMsg
  | some _ => dedupe (if aiItems.isEmpty then fallbackItems messages else aiItems)

/-- The dict returned by `calculate_totals`. -/
structure Totals where
  items : List Item
  subtotal : Rat
  gst : Rat
  gst_rate_pct : Int
  total : Rat
deriving Repr, DecidableEq

/-- `calculate_totals(items)`, with `Config.GST_RATE` as the explicit
parameter `gstRate`. The subtotal accumulates unrounded; each reported
figure is rounded (or truncated, for the percentage) only at output. -/
def calculate_totals (items : List Item) (gstRate : Rat) : Totals :=
  let subtotal := (items.map fun i => (i.quantity : Rat) * i.price).sum
  let gstAmount := subtotal * gstRate
  { items := items
    subtotal := pyRound2 subtotal
    gst := pyRound2 gstAmount
    gst_rate_pct := pyTrunc (gstRate * 100)
    total := pyRound2 (subtotal + gstAmount) }

/-! ## Character-level lemmas -/

theorem toNat_ofNat_lt {n : Nat} (h : n < 55296) : (Char.ofNat n).toNat = n := by
  have hv : n.isValidChar := Or.inl h
  unfold Char.ofNat
  rw [dif_pos hv]
  simp [Char.ofNatAux, Char.toNat, UInt32.toNat]

theorem toNat_toLowerA (c : Char) :
    (toLowerA c).toNat = if 65 ≤ c.toNat ∧ c.toNat ≤ 90 then c.toNat + 32 else c.toNat := by
  unfold toLowerA
  split
  · next h => exact toNat_ofNat_lt (by omega)
  · rfl

theorem toNat_toUpperA (c : Char) :
    (toUpperA c).toNat = if 97 ≤ c.toNat ∧ c.toNat ≤ 122 then c.toNat - 32 else c.toNat := by
  unfold toUpperA
  split
  · next h => exact toNat_ofNat_lt (by omega)
  · rfl

theorem isAlphaA_iff (c : Char) :
    isAlphaA c = true ↔ (65 ≤ c.toNat ∧ c.toNat ≤ 90) ∨ (97 ≤ c.toNat ∧ c.toNat ≤ 122) := by
  simp [isAlphaA, isUpperA, isLowerA]

theorem isPyWs_iff (c : Char) :
    isPyWs c = true ↔
      (c.toNat = 32 ∨ c.toNat = 9 ∨ c.toNat = 10 ∨ c.toNat = 13 ∨ c.toNat = 11 ∨ c.toNat = 12) := by
  simp [isPyWs]

theorem ws_not_alpha {c : Char} (h : isPyWs c = true) : isAlphaA c = false := by
  rw [isPyWs_iff] at h
  rw [Bool.eq_false_iff]
  intro hal
  rw [isAlphaA_iff] at hal
  omega

theorem isAlphaA_toLowerA (c : Char) : isAlphaA (toLowerA c) = isAlphaA c := by
  rw [Bool.eq_iff_iff, isAlphaA_iff, isAlphaA_iff, toNat_toLowerA]
  split <;> omega

theorem isAlphaA_toUpperA (c : Char) : isAlphaA (toUpperA c) = isAlphaA c := by
  rw [Bool.eq_iff_iff, isAlphaA_iff, isAlphaA_iff, toNat_toUpperA]
  split <;> omega

theorem isPyWs_toLowerA (c : Char) : isPyWs (toLowerA c) = isPyWs c := by
  rw [Bool.eq_iff_iff, isPyWs_iff, isPyWs_iff, toNat_toLowerA]
  split <;> omega

theorem isPyWs_toUpperA (c : Char) : isPyWs (toUpperA c) = isPyWs c := by
  rw [Bool.eq_iff_iff, isPyWs_iff, isPyWs_iff, toNat_toUpperA]
  split <;> omega

theorem isAlphaA_titleChar (b : Bool) (c : Char) : isAlphaA (titleChar b c) = isAlphaA c := by
  by_cases hal : isAlphaA c = true <;> cases b <;>
    simp [titleChar, hal, isAlphaA_toLowerA, isAlphaA_toUpperA]

theorem isPyWs_titleChar (b : Bool) (c : Char) : isPyWs (titleChar b c) = isPyWs c := by
  by_cases hal : isAlphaA c = true <;> cases b <;>
    simp [titleChar, hal, isPyWs_toLowerA, isPyWs_toUpperA]

theorem toLowerA_eq_self {d : Char} (h : ¬(65 ≤ d.toNat ∧ d.toNat ≤ 90)) : toLowerA d = d :=
  if_neg h

theorem toUpperA_eq_self {d : Char} (h : ¬(97 ≤ d.toNat ∧ d.toNat ≤ 122)) : toUpperA d = d :=
  if_neg h

theorem toLowerA_toLowerA (c : Char) : toLowerA (toLowerA c) = toLowerA c :=
  toLowerA_eq_self (by rw [toNat_toLowerA]; split <;> omega)

theorem toUpperA_toUpperA (c : Char) : toUpperA (toUpperA c) = toUpperA c :=
  toUpperA_eq_self (by rw [toNat_toUpperA]; split <;> omega)

theorem titleChar_titleChar (b : Bool) (c : Char) :
    titleChar b (titleChar b c) = titleChar b c := by
  by_cases hal : isAlphaA c = true
  · cases b with
    | true =>
      have h1 : titleChar true c = toLowerA c := by simp [titleChar, hal]
      rw [h1]
      simp [titleChar, isAlphaA_toLowerA, hal, toLowerA_toLowerA]
    | false =>
      have h1 : titleChar false c = toUpperA c := by simp [titleChar, hal]
      rw [h1]
      simp [titleChar, isAlphaA_toUpperA, hal, toUpperA_toUpperA]
  · simp [titleChar, hal]

/-! ## Normalisation: `strip().title()` is a projection -/

theorem titleGo_titleGo (l : List Char) : ∀ b, titleGo b (titleGo b l) = titleGo b l := by
  induction l with
  | nil => intro b; rfl
  | cons c cs ih =>
    intro b
    show titleChar b (titleChar b c) :: titleGo (isAlphaA (titleChar b c)) (titleGo (isAlphaA c) cs)
        = titleChar b c :: titleGo (isAlphaA c) cs
    rw [titleChar_titleChar, isAlphaA_titleChar, ih]

theorem titleGo_ws_profile (l : List Char) : ∀ b, (titleGo b l).map isPyWs = l.map isPyWs := by
  induction l with
  | nil => intro b; rfl
  | cons c cs ih =>
    intro b
    show isPyWs (titleChar b c) :: (titleGo (isAlphaA c) cs).map isPyWs = isPyWs c :: cs.map isPyWs
    rw [isPyWs_titleChar, ih]

theorem dropWhile_titleGo (l : List Char) :
    (titleGo false l).dropWhile isPyWs = titleGo false (l.dropWhile isPyWs) := by
  induction l with
  | nil => rfl
  | cons c cs ih =>
    by_cases hws : isPyWs c = true
    · have hal : isAlphaA c = false := ws_not_alpha hws
      have hc : titleChar false c = c := by simp [titleChar, hal]
      show (titleChar false c :: titleGo (isAlphaA c) cs).dropWhile isPyWs
          = titleGo false ((c :: cs).dropWhile isPyWs)
      rw [hc, hal, List.dropWhile_cons_of_pos hws, List.dropWhile_cons_of_pos hws, ih]
    · have hws2 : ¬ isPyWs (titleChar false c) = true := by
        rw [isPyWs_titleChar]; exact hws
      show (titleChar false c :: titleGo (isAlphaA c) cs).dropWhile isPyWs
          = titleGo false ((c :: cs).dropWhile isPyWs)
      rw [List.dropWhile_cons_of_neg hws2, List.dropWhile_cons_of_neg hws]
      rfl

theorem dropWhile_transfer {p : Char → Bool} {l₁ l₂ : List Char}
    (hp : l₁.map p = l₂.map p) (h : l₂.dropWhile p = l₂) : l₁.dropWhile p = l₁ := by
  cases l₁ with
  | nil => rfl
  | cons a t₁ =>
    cases l₂ with
    | nil => simp at hp
    | cons b t₂ =>
      simp only [List.map_cons, List.cons.injEq] at hp
      by_cases hb : p b = true
      · exfalso
        rw [List.dropWhile_cons_of_pos hb] at h
        have h1 : (t₂.dropWhile p).length ≤ t₂.length := (List.dropWhile_suffix p).length_le
        have h2 := congrArg List.length h
        simp at h2
        omega
      · have ha : ¬ p a = true := by rw [hp.1]; exact hb
        rw [List.dropWhile_cons_of_neg ha]

theorem dropWhile_of_isPrefix {p : Char → Bool} {m l : List Char}
    (hm : m <+: l) (h : l.dropWhile p = l) : m.dropWhile p = m := by
  cases m with
  | nil => rfl
  | cons a t =>
    obtain ⟨r, hr⟩ := hm
    subst hr
    by_cases ha : p a = true
    · exfalso
      rw [List.cons_append, List.dropWhile_cons_of_pos ha] at h
      have h1 : ((t ++ r).dropWhile p).length ≤ (t ++ r).length :=
        (List.dropWhile_suffix p).length_le
      have h2 := congrArg List.length h
      simp at h1 h2
      omega
    · rw [List.dropWhile_cons_of_neg ha]

/-- The left strip of an already produced `pyStrip` is the identity. -/
theorem dropWhile_pyStrip (s : List Char) :
    (pyStrip s).dropWhile isPyWs = pyStrip s := by
  have hsuf : (s.dropWhile isPyWs).reverse.dropWhile isPyWs <:+ (s.dropWhile isPyWs).reverse :=
    List.dropWhile_suffix isPyWs
  have hpre : ((s.dropWhile isPyWs).reverse.dropWhile isPyWs).reverse <+:
      (s.dropWhile isPyWs).reverse.reverse := by
    rw [List.reverse_prefix]
    exact hsuf
  rw [List.reverse_reverse] at hpre
  unfold pyStrip
  exact dropWhile_of_isPrefix hpre (List.dropWhile_idempotent _ _)

/-- The right strip of an already produced `pyStrip` is the identity. -/
theorem dropWhile_reverse_pyStrip (s : List Char) :
    (pyStrip s).reverse.dropWhile isPyWs = (pyStrip s).reverse := by
  unfold pyStrip
  rw [List.reverse_reverse]
  exact List.dropWhile_idempotent _ _

/-- A list whose two one-sided strips are trivial is `pyStrip`-fixed. -/
theorem pyStrip_eq_self_of {l : List Char} (h1 : l.dropWhile isPyWs = l)
    (h2 : l.reverse.dropWhile isPyWs = l.reverse) : pyStrip l = l := by
  unfold pyStrip
  rw [h1, h2, List.reverse_reverse]

theorem pyStrip_pyTitle_pyStrip (s : List Char) :
    pyStrip (pyTitle (pyStrip s)) = pyTitle (pyStrip s) := by
  apply pyStrip_eq_self_of
  · unfold pyTitle
    rw [dropWhile_titleGo, dropWhile_pyStrip]
  · have hp : (pyTitle (pyStrip s)).reverse.map isPyWs = (pyStrip s).reverse.map isPyWs := by
      rw [List.map_reverse, List.map_reverse]
      exact congrArg List.reverse (titleGo_ws_profile _ _)
    exact dropWhile_transfer hp (dropWhile_reverse_pyStrip s)

/-- `strip().title()` normalisation is a projection: renormalising its
output changes nothing. -/
theorem norm_fix (s : List Char) :
    pyTitle (pyStrip (pyTitle (pyStrip s))) = pyTitle (pyStrip s) := by
  rw [pyStrip_pyTitle_pyStrip]
  unfold pyTitle
  exact titleGo_titleGo _ _

/-! ## Stepping lemmas for the deduplication loop -/

/-- The update applied to the `deduplicated` dict on a name collision. -/
def updEntry (n : List Char) (q : Int) (p : Rat) (it : Item) : Item :=
  if it.item == n then
    { it with quantity := it.quantity + q, price := if p > 0 then p else it.price }
  else it

theorem dedupeAux_cons_eq (e : RawItem) (rest : List RawItem) (acc : List Item) :
    dedupeAux (e :: rest) acc =
      match coerceEntry e with
      | .error msg => .error msg
      | .ok none => dedupeAux rest acc
      | .ok (some (n, q, p)) =>
        if acc.any (fun it => it.item == n) then
          dedupeAux rest (acc.map (updEntry n q p))
        else dedupeAux rest (acc ++ [⟨n, q, p⟩]) := rfl

theorem dedupeAux_cons_error {e : RawItem} {m : String} (hc : coerceEntry e = .error m)
    (rest : List RawItem) (acc : List Item) : dedupeAux (e :: rest) acc = .error m := by
  rw [dedupeAux_cons_eq, hc]

theorem dedupeAux_cons_skip {e : RawItem} (hc : coerceEntry e = .ok none)
    (rest : List RawItem) (acc : List Item) : dedupeAux (e :: rest) acc = dedupeAux rest acc := by
  rw [dedupeAux_cons_eq, hc]

theorem dedupeAux_cons_hit {e : RawItem} {n : List Char} {q : Int} {p : Rat}
    (hc : coerceEntry e = .ok (some (n, q, p))) (rest : List RawItem) (acc : List Item)
    (hany : acc.any (fun it => it.item == n) = true) :
    dedupeAux (e :: rest) acc = dedupeAux rest (acc.map (updEntry n q p)) := by
  rw [dedupeAux_cons_eq, hc]
  simp [hany]

theorem dedupeAux_cons_new {e : RawItem} {n : List Char} {q : Int} {p : Rat}
    (hc : coerceEntry e = .ok (some (n, q, p))) (rest : List RawItem) (acc : List Item)
    (hany : acc.any (fun it => it.item == n) = false) :
    dedupeAux (e :: rest) acc = dedupeAux rest (acc ++ [⟨n, q, p⟩]) := by
  rw [dedupeAux_cons_eq, hc]
  simp [hany]

theorem coerceEntry_record_eq (i qf pf : Option PyVal) :
    coerceEntry (.record i qf pf) =
      (pyInt (qf.getD (.vInt 1))).bind fun q =>
        (pyFloat (pf.getD (.vFloat 0))).bind fun p =>
          .ok (some (normName (i.getD (.vStr ['C', 'u', 's', 't', 'o', 'm', ' ', 'I', 't', 'e', 'm'])), q, p)) :=
  rfl

theorem coerceEntry_record_ok {i qf pf : Option PyVal} {n : List Char} {q : Int} {p : Rat}
    (h : coerceEntry (.record i qf pf) = .ok (some (n, q, p))) :
    n = normName (i.getD (.vStr ['C', 'u', 's', 't', 'o', 'm', ' ', 'I', 't', 'e', 'm'])) ∧
      pyInt (qf.getD (.vInt 1)) = .ok q ∧ pyFloat (pf.getD (.vFloat 0)) = .ok p := by
  rw [coerceEntry_record_eq] at h
  cases hq : pyInt (qf.getD (.vInt 1)) with
  | error m => rw [hq] at h; simp [Except.bind] at h
  | ok qv =>
    rw [hq] at h
    cases hp : pyFloat (pf.getD (.vFloat 0)) with
    | error m => rw [hp] at h; simp [Except.bind] at h
    | ok pv =>
      rw [hp] at h
      simp only [Except.bind, Except.ok.injEq, Option.some.injEq, Prod.mk.injEq] at h
      obtain ⟨hn, hqv, hpv⟩ := h
      exact ⟨hn.symm, by rw [hqv], by rw [hpv]⟩

/-- Any name produced by the cleansing loop is a fixed point of the
`strip().title()` normalisation. -/
theorem norm_of_coerce {e : RawItem} {n : List Char} {q : Int} {p : Rat}
    (h : coerceEntry e = .ok (some (n, q, p))) : pyTitle (pyStrip n) = n := by
  cases e with
  | atom v => simp [coerceEntry] at h
  | record i qf pf =>
    obtain ⟨hn, -, -⟩ := coerceEntry_record_ok h
    rw [hn]
    exact norm_fix _

/-! ## Structure of the deduplicated output: distinct, normalised names -/

theorem map_item_updEntry (n : List Char) (q : Int) (p : Rat) (acc : List Item) :
    (acc.map (updEntry n q p)).map Item.item = acc.map Item.item := by
  rw [List.map_map]
  apply List.map_congr_left
  intro it _
  by_cases h : it.item == n <;> simp [updEntry, h]

theorem any_eq_false_name {acc : List Item} {n : List Char}
    (hany : acc.any (fun it => it.item == n) = false) : n ∉ acc.map Item.item := by
  intro hmem
  rw [List.mem_map] at hmem
  obtain ⟨a, ha, hae⟩ := hmem
  rw [List.any_eq_false] at hany
  have := hany a ha
  simp [hae] at this

/-- Invariant of the dedup loop: starting from an accumulator with
pairwise-distinct, normalisation-fixed names, the successful output also
has pairwise-distinct, normalisation-fixed names. -/
theorem dedupeAux_nodup_fix :
    ∀ (raws : List RawItem) (acc out : List Item),
      (acc.map Item.item).Nodup → (∀ it ∈ acc, pyTitle (pyStrip it.item) = it.item) →
      dedupeAux raws acc = .ok out →
      (out.map Item.item).Nodup ∧ ∀ it ∈ out, pyTitle (pyStrip it.item) = it.item := by
  intro raws
  induction raws with
  | nil =>
    intro acc out hnd hfix h
    simp only [dedupeAux, Except.ok.injEq] at h
    subst h
    exact ⟨hnd, hfix⟩
  | cons e rest ih =>
    intro acc out hnd hfix h
    cases hc : coerceEntry e with
    | error m =>
      rw [dedupeAux_cons_error hc] at h
      simp at h
    | ok r =>
      match r with
      | none =>
        rw [dedupeAux_cons_skip hc] at h
        exact ih acc out hnd hfix h
      | some (n, q, p) =>
        by_cases hany : acc.any (fun it => it.item == n) = true
        · rw [dedupeAux_cons_hit hc rest acc hany] at h
          apply ih _ out _ _ h
          · rw [map_item_updEntry]; exact hnd
          · intro it hit
            rw [List.mem_map] at hit
            obtain ⟨a, ha, rfl⟩ := hit
            have hfa := hfix a ha
            by_cases h' : a.item == n <;> simp [updEntry, h', hfa]
        · rw [Bool.not_eq_true] at hany
          rw [dedupeAux_cons_new hc rest acc hany] at h
          apply ih _ out _ _ h
          · rw [List.map_append]
            simp only [List.map_cons, List.map_nil]
            rw [List.nodup_append]
            refine ⟨hnd, List.nodup_singleton n, ?_⟩
            intro x hx
            simp only [List.mem_singleton]
            intro hxn
            subst hxn
            exact any_eq_false_name hany hx
          · intro it hit
            rw [List.mem_append] at hit
            cases hit with
            | inl hl => exact hfix it hl
            | inr hr =>
              rw [List.mem_singleton] at hr
              subst hr
              exact norm_of_coerce hc

/-- Replaying an already deduplicated list (with distinct, normalised
names) through the loop just appends it to the accumulator. -/
theorem dedupeAux_replay :
    ∀ (out acc : List Item),
      ((acc ++ out).map Item.item).Nodup →
      (∀ it ∈ out, pyTitle (pyStrip it.item) = it.item) →
      dedupeAux (out.map rawOfItem) acc = .ok (acc ++ out) := by
  intro out
  induction out with
  | nil => intro acc _ _; simp [dedupeAux]
  | cons it rest ih =>
    intro acc hnd hfix
    have hfix1 : pyTitle (pyStrip it.item) = it.item := hfix it (by simp)
    have hc : coerceEntry (rawOfItem it) = .ok (some (it.item, it.quantity, it.price)) := by
      have h0 : coerceEntry (rawOfItem it)
          = .ok (some (pyTitle (pyStrip it.item), it.quantity, it.price)) := rfl
      rw [hfix1] at h0
      exact h0
    have hany : acc.any (fun x => x.item == it.item) = false := by
      rw [List.any_eq_false]
      intro a ha
      simp only [beq_iff_eq]
      intro hae
      rw [List.map_append, List.nodup_append] at hnd
      have := hnd.2.2 (List.mem_map_of_mem Item.item ha)
      exact this (by rw [hae]; simp)
    rw [List.map_cons, dedupeAux_cons_new hc (rest.map rawOfItem) acc hany]
    have heta : (⟨it.item, it.quantity, it.price⟩ : Item) = it := rfl
    rw [heta]
    have hstep := ih (acc ++ [it]) (by rwa [List.append_assoc, List.singleton_append]) fun a ha =>
      hfix a (List.mem_cons_of_mem it ha)
    rw [hstep, List.append_assoc, List.singleton_append]

/-- `rawOfItem` turns a cleansed item back into the raw dict it prints as;
feeding the dedup output back in is the identity. -/
theorem dedupe_replay_eq {raws : List RawItem} {out : List Item}
    (h : dedupe raws = .ok out) : dedupe (out.map rawOfItem) = .ok out := by
  obtain ⟨hnd, hfix⟩ := dedupeAux_nodup_fix raws [] out (by simp) (by simp) h
  have := dedupeAux_replay out [] (by simpa using hnd) hfix
  simpa [dedupe] using this

/-! ## Quantity accounting in the deduplication loop -/

/-- The quantity a raw entry contributes to the normalized name `n`:
its coerced quantity when it is a cleanly-coercing record with that
normalized name, zero otherwise. -/
def contribQty (n : List Char) (e : RawItem) : Int :=
  match coerceEntry e with
  | .ok (some (m, q, _)) => if m = n then q else 0
  | _ => 0

/-- The quantity stored in the accumulator under name `n` (0 if the name is
absent); reads the first entry with the name, as the dict lookup does. -/
def accQty (n : List Char) : List Item → Int
  | [] => 0
  | it :: rest => if it.item == n then it.quantity else accQty n rest

theorem accQty_self_of_nodup :
    ∀ {acc : List Item}, (acc.map Item.item).Nodup → ∀ {it : Item}, it ∈ acc →
      accQty it.item acc = it.quantity := by
  intro acc
  induction acc with
  | nil => intro _ it hit; simp at hit
  | cons a t ih =>
    intro hnd it hit
    rw [List.map_cons, List.nodup_cons] at hnd
    rw [List.mem_cons] at hit
    cases hit with
    | inl h =>
      subst h
      simp [accQty]
    | inr h =>
      have hb : (a.item == it.item) = false := by
        rw [beq_eq_false_iff_ne]
        intro he
        exact hnd.1 (he ▸ List.mem_map_of_mem Item.item h)
      simp only [accQty, hb, Bool.false_eq_true, if_false]
      exact ih hnd.2 h

theorem updEntry_item (n : List Char) (q : Int) (p : Rat) (it : Item) :
    (updEntry n q p it).item = it.item := by
  unfold updEntry
  split <;> rfl

theorem accQty_upd_eq :
    ∀ {acc : List Item} {n : List Char} (q : Int) (p : Rat),
      acc.any (fun it => it.item == n) = true →
      accQty n (acc.map (updEntry n q p)) = accQty n acc + q := by
  intro acc
  induction acc with
  | nil => intro n q p hany; simp at hany
  | cons a t ih =>
    intro n q p hany
    rw [List.map_cons]
    cases ha : a.item == n with
    | true =>
      have hupd : updEntry n q p a =
          { a with quantity := a.quantity + q, price := if p > 0 then p else a.price } := by
        simp [updEntry, ha]
      simp only [accQty, hupd, ha, if_true]
    | false =>
      have hupd : updEntry n q p a = a := by simp [updEntry, ha]
      have hany' : t.any (fun it => it.item == n) = true := by
        rw [List.any_cons, ha, Bool.false_or] at hany
        exact hany
      simp only [accQty, hupd, ha, Bool.false_eq_true, if_false]
      exact ih q p hany'

theorem accQty_upd_ne :
    ∀ {acc : List Item} {m n : List Char} (q : Int) (p : Rat), m ≠ n →
      accQty m (acc.map (updEntry n q p)) = accQty m acc := by
  intro acc
  induction acc with
  | nil => intro m n q p _; rfl
  | cons a t ih =>
    intro m n q p hmn
    rw [List.map_cons]
    cases ham : a.item == m with
    | true =>
      have han : (a.item == n) = false := by
        rw [beq_eq_false_iff_ne]
        rw [beq_iff_eq] at ham
        rw [ham]
        exact hmn
      have hupd : updEntry n q p a = a := by simp [updEntry, han]
      simp only [accQty, hupd, ham, if_true]
    | false =>
      have hitem : ((updEntry n q p a).item == m) = false := by
        rw [updEntry_item]
        exact ham
      simp only [accQty, hitem, ham, Bool.false_eq_true, if_false]
      exact ih q p hmn

theorem accQty_append :
    ∀ {acc : List Item} {n : List Char} (m : List Char) (q : Int) (p : Rat),
      acc.any (fun it => it.item == n) = false →
      accQty m (acc ++ [Item.mk n q p]) = accQty m acc + (if n = m then q else 0) := by
  intro acc
  induction acc with
  | nil =>
    intro n m q p _
    cases hnm : n == m with
    | true =>
      rw [beq_iff_eq] at hnm
      simp [accQty, hnm]
    | false =>
      rw [beq_eq_false_iff_ne] at hnm
      simp [accQty, hnm]
  | cons a t ih =>
    intro n m q p hany
    rw [List.any_cons, Bool.or_eq_false_iff] at hany
    rw [List.cons_append]
    cases ham : a.item == m with
    | true =>
      have hnm : ¬ n = m := by
        intro hc
        rw [beq_iff_eq] at ham
        rw [hc, ← ham, beq_self_eq_true] at hany
        exact Bool.true_eq_false.mp hany.1
      simp only [accQty, ham, if_true, hnm, if_false, add_zero]
    | false =>
      simp only [accQty, ham, Bool.false_eq_true, if_false]
      exact ih m q p hany.2

/-- Invariant of the dedup loop for quantities: every output quantity is
the stored quantity from the accumulator plus the total contribution of
the remaining raw entries to its name. -/
theorem dedupeAux_qty :
    ∀ (raws : List RawItem) (acc out : List Item), (acc.map Item.item).Nodup →
      dedupeAux raws acc = .ok out →
      ∀ it ∈ out, it.quantity = accQty it.item acc + (raws.map (contribQty it.item)).sum := by
  intro raws
  induction raws with
  | nil =>
    intro acc out hnd h it hit
    simp only [dedupeAux, Except.ok.injEq] at h
    subst h
    rw [accQty_self_of_nodup hnd hit]
    simp
  | cons e rest ih =>
    intro acc out hnd h it hit
    cases hc : coerceEntry e with
    | error m =>
      rw [dedupeAux_cons_error hc] at h
      simp at h
    | ok r =>
      match r with
      | none =>
        rw [dedupeAux_cons_skip hc] at h
        have hcontrib : contribQty it.item e = 0 := by simp [contribQty, hc]
        rw [List.map_cons, List.sum_cons, hcontrib, zero_add]
        exact ih acc out hnd h it hit
      | some (n, q, p) =>
        have hcontrib : contribQty it.item e = if n = it.item then q else 0 := by
          simp [contribQty, hc]
        by_cases hany : acc.any (fun x => x.item == n) = true
        · rw [dedupeAux_cons_hit hc rest acc hany] at h
          have hnd' : ((acc.map (updEntry n q p)).map Item.item).Nodup := by
            rw [map_item_updEntry]; exact hnd
          have hq := ih _ out hnd' h it hit
          rw [hq, List.map_cons, List.sum_cons, hcontrib]
          by_cases hn : n = it.item
          · subst hn
            rw [accQty_upd_eq q p hany, if_pos rfl]
            ring
          · rw [accQty_upd_ne q p (Ne.symm hn), if_neg hn]
            ring
        · rw [Bool.not_eq_true] at hany
          rw [dedupeAux_cons_new hc rest acc hany] at h
          have hnd' : ((acc ++ [Item.mk n q p]).map Item.item).Nodup := by
            rw [List.map_append]
            simp only [List.map_cons, List.map_nil]
            rw [List.nodup_append]
            refine ⟨hnd, List.nodup_singleton n, ?_⟩
            intro x hx
            simp only [List.mem_singleton]
            intro hxn
            subst hxn
            exact any_eq_false_name hany hx
          have hq := ih _ out hnd' h it hit
          rw [hq, accQty_append it.item q p hany, List.map_cons, List.sum_cons, hcontrib]
          ring

/-! ## Quantity lower bound machinery -/

/-- A raw entry whose quantity field, if it coerces at all, coerces to at
least one (in particular: a missing quantity field, which defaults to 1). -/
def qtyAtLeastOne (e : RawItem) : Bool :=
  match coerceEntry e with
  | .ok (some (_, q, _)) => decide (1 ≤ q)
  | _ => true

theorem dedupeAux_qty_lb :
    ∀ (raws : List RawItem) (acc out : List Item), raws.all qtyAtLeastOne = true →
      (∀ it ∈ acc, 1 ≤ it.quantity) → dedupeAux raws acc = .ok out →
      ∀ it ∈ out, 1 ≤ it.quantity := by
  intro raws
  induction raws with
  | nil =>
    intro acc out _ hacc h
    simp only [dedupeAux, Except.ok.injEq] at h
    subst h
    exact hacc
  | cons e rest ih =>
    intro acc out hall hacc h
    rw [List.all_cons, Bool.and_eq_true] at hall
    cases hc : coerceEntry e with
    | error m =>
      rw [dedupeAux_cons_error hc] at h
      simp at h
    | ok r =>
      match r with
      | none =>
        rw [dedupeAux_cons_skip hc] at h
        exact ih acc out hall.2 hacc h
      | some (n, q, p) =>
        have hq : 1 ≤ q := by
          have h1 := hall.1
          rw [qtyAtLeastOne, hc] at h1
          simpa using h1
        by_cases hany : acc.any (fun x => x.item == n) = true
        · rw [dedupeAux_cons_hit hc rest acc hany] at h
          apply ih _ out hall.2 _ h
          intro a ha
          rw [List.mem_map] at ha
          obtain ⟨b, hb, rfl⟩ := ha
          have hbq := hacc b hb
          unfold updEntry
          split
          · simp only []
            omega
          · exact hbq
        · rw [Bool.not_eq_true] at hany
          rw [dedupeAux_cons_new hc rest acc hany] at h
          apply ih _ out hall.2 _ h
          intro a ha
          rw [List.mem_append] at ha
          cases ha with
          | inl hl => exact hacc a hl
          | inr hr =>
            rw [List.mem_singleton] at hr
            subst hr
            exact hq


/-! ## The fallback output always deduplicates cleanly -/

theorem dedupeAux_ok_of_entries :
    ∀ (l : List RawItem) (acc : List Item), (∀ e ∈ l, ∃ r, coerceEntry e = .ok r) →
      ∃ out, dedupeAux l acc = .ok out := by
  intro l
  induction l with
  | nil => intro acc _; exact ⟨acc, rfl⟩
  | cons e rest ih =>
    intro acc hok
    obtain ⟨r, hr⟩ := hok e (by simp)
    have hrest : ∀ x ∈ rest, ∃ r, coerceEntry x = .ok r :=
      fun x hx => hok x (List.mem_cons_of_mem e hx)
    match r with
    | none =>
      rw [dedupeAux_cons_skip hr]
      exact ih acc hrest
    | some (n, q, p) =>
      by_cases hany : acc.any (fun it => it.item == n) = true
      · rw [dedupeAux_cons_hit hr rest acc hany]
        exact ih _ hrest
      · rw [Bool.not_eq_true] at hany
        rw [dedupeAux_cons_new hr rest acc hany]
        exact ih _ hrest

theorem fallback_entries_ok (messages : List (List Char)) :
    ∀ e ∈ fallbackItems messages, ∃ r, coerceEntry e = .ok r := by
  intro e he
  unfold fallbackItems at he
  split at he
  · rw [List.mem_singleton] at he
    subst he
    exact ⟨_, rfl⟩
  · rw [List.mem_map] at he
    obtain ⟨itm, -, rfl⟩ := he
    exact ⟨_, rfl⟩

theorem dedupe_fallback_ok (messages : List (List Char)) :
    ∃ out, dedupe (fallbackItems messages) = .ok out :=
  dedupeAux_ok_of_entries (fallbackItems messages) [] (fallback_entries_ok messages)

/-! ## The claims -/

section ConcreteEvaluation

attribute [local semireducible] Rat.mul Rat.inv Rat.add Rat.sub

/-- C1, counterexample: with the AI credential missing, `parse_chats` does
not fall back — it raises an exception immediately, already on the concrete
input `["2 pizza"]`, contradicting "never raises … proceeds to the regex
fallback". -/
theorem missing_key_raises_cex :
    parse_chats none [] ["2 pizza".toList] = .error apiKeyErrMsg := rfl

/-- C1, amended: with the credential missing `parse_chats` raises
(`Exception("OpenRouter API Key missing. Check your .env file.")`) for every
input, falling back for no input; with the credential present and an empty
AI extraction result it proceeds to the regex fallback and returns its
deduplicated item list without raising. -/
theorem missing_key_and_fallback_amended :
    (∀ (aiItems : List RawItem) (messages : List (List Char)),
        parse_chats none aiItems messages = .error apiKeyErrMsg) ∧
    (∀ (k : List Char) (messages : List (List Char)),
        ∃ out, parse_chats (some k) [] messages = .ok out ∧
          dedupe (fallbackItems messages) = .ok out) := by
  refine ⟨fun _ _ => rfl, fun k messages => ?_⟩
  obtain ⟨out, hout⟩ := dedupe_fallback_ok messages
  exact ⟨out, hout, hout⟩

/-- C2, counterexample: the deduplication step does fail on a loosely-typed
entry — a present quantity `"abc"` that cannot be coerced raises
`ValueError` instead of defaulting to 1. -/
theorem dedupe_bad_quantity_raises_cex :
    dedupe [RawItem.record (some (.vStr "A".toList)) (some (.vStr "abc".toList)) none] =
      .error "ValueError: invalid literal for int() with base 10" := rfl

/-- C2, amended: entries that are not structurally a record are silently
dropped, and a *missing* quantity defaults to 1 and a *missing* price to
0.0; but a present quantity (or price) value that cannot be coerced raises,
and the exception propagates out of the step no matter what follows. -/
theorem dedupe_skip_default_raise_amended :
    (∀ (v : PyVal) (rest : List RawItem), dedupe (RawItem.atom v :: rest) = dedupe rest) ∧
    (∀ (itm pr : Option PyVal) (rest : List RawItem),
        dedupe (RawItem.record itm (some (.vStr "abc".toList)) pr :: rest) =
          .error "ValueError: invalid literal for int() with base 10") ∧
    (∀ (s : List Char),
        dedupe [RawItem.record (some (.vStr s)) none none] =
          .ok [⟨pyTitle (pyStrip s), 1, 0⟩]) :=
  ⟨fun _ _ => rfl, fun _ _ _ => rfl, fun _ => rfl⟩

/-- C3, counterexample: the returned grand total is the rounding of the
*unrounded* subtotal plus tax, which differs from returned subtotal plus
returned tax: one item of quantity 1 and price 1.004 at tax rate 1 yields
subtotal 1.00, tax 1.00, but total 2.01 ≠ 2.00. -/
theorem totals_sum_mismatch_cex :
    (calculate_totals [⟨"A".toList, 1, 251/250⟩] 1).total ≠
      (calculate_totals [⟨"A".toList, 1, 251/250⟩] 1).subtotal +
        (calculate_totals [⟨"A".toList, 1, 251/250⟩] 1).gst := by decide

/-- C3, amended: `subtotal = round₂(Σ qᵢ·pᵢ)` (accumulated unrounded,
rounded only at output), `tax = round₂((Σ qᵢ·pᵢ)·rate)` and
`total = round₂(Σ qᵢ·pᵢ + (Σ qᵢ·pᵢ)·rate)` — the grand total rounds the
sum of the *unrounded* subtotal and tax, rather than summing the two
returned figures; on the claim's concrete example the three agree:
subtotal 250.00, tax 45.00, total 295.00 at rate 0.18. -/
theorem calculate_totals_spec_amended :
    (∀ (items : List Item) (gstRate : Rat),
        calculate_totals items gstRate =
          { items := items
            subtotal := pyRound2 ((items.map fun i => (i.quantity : Rat) * i.price).sum)
            gst := pyRound2 ((items.map fun i => (i.quantity : Rat) * i.price).sum * gstRate)
            gst_rate_pct := pyTrunc (gstRate * 100)
            total := pyRound2 ((items.map fun i => (i.quantity : Rat) * i.price).sum
              + (items.map fun i => (i.quantity : Rat) * i.price).sum * gstRate) }) ∧
    calculate_totals [⟨"A".toList, 2, 100⟩, ⟨"B".toList, 1, 50⟩] (18/100) =
      { items := [⟨"A".toList, 2, 100⟩, ⟨"B".toList, 1, 50⟩]
        subtotal := 250
        gst := 45
        gst_rate_pct := 18
        total := 295 } :=
  ⟨fun _ _ => rfl, by decide⟩

/-- C4, counterexample: a raw entry with the explicit quantity 0 is not
coerced to 1 — the resulting line item has quantity 0 < 1. -/
theorem quantity_zero_in_result_cex :
    dedupe [RawItem.record (some (.vStr "A".toList)) (some (.vInt 0)) (some (.vFloat 5))] =
      .ok [⟨"A".toList, 0, 5⟩] ∧ (Item.mk "A".toList 0 5).quantity < 1 :=
  ⟨rfl, by decide⟩

/-- C4, amended: a *missing* quantity defaults to 1, but a present
non-positive quantity is kept as-is; provided every raw entry's quantity is
missing or coerces to at least 1, every line item in the result has
quantity ≥ 1. -/
theorem dedupe_quantity_lower_bound_amended :
    ∀ (raws : List RawItem) (out : List Item), raws.all qtyAtLeastOne = true →
      dedupe raws = .ok out → ∀ it ∈ out, 1 ≤ it.quantity :=
  fun raws out hall h => dedupeAux_qty_lb raws [] out hall (by simp) h

theorem dedupe_quantity_lower_bound_witness :
    1 ≤ (Item.mk "A".toList 2 5).quantity :=
  dedupe_quantity_lower_bound_amended
    [RawItem.record (some (.vStr "A".toList)) (some (.vInt 2)) (some (.vFloat 5))]
    [Item.mk "A".toList 2 5] (by decide) rfl (Item.mk "A".toList 2 5) (by simp)

/-- C5, counterexample: with two slots (`["2 pizza", "3 coke"]`) and no
aggregate price in the messages, the default 100.0 is *not* divided across
the two slots: pizza gets unit price `round₂(100/2) = 50.0`, not the
`round₂((100/2)/2) = 25.0` the claim's reading implies. -/
theorem fallback_default_price_cex :
    fallbackItems ["2 pizza".toList, "3 coke".toList] =
      [RawItem.record (some (.vStr "Pizza".toList)) (some (.vInt 2)) (some (.vFloat 50)),
       RawItem.record (some (.vStr "Coke".toList)) (some (.vInt 3)) (some (.vFloat (3333/100)))] ∧
    (50 : Rat) ≠ pyRound2 (100 / 2 / 2) :=
  ⟨rfl, by decide⟩

/-- C5, amended: whenever at least one candidate item was found, the slot
share is the aggregate price divided evenly across the distinct extraction
slots when a positive aggregate price was found, and the *undivided* fixed
default 100.0 otherwise; each slot's unit price is its share divided by its
quantity, rounded to 2 decimals (slots of quantity 0 take the share
unrounded). -/
theorem fallback_distribution_amended :
    ∀ (messages : List (List Char)), foundProducts messages ≠ [] →
      slotShare messages = (if totalPriceOf messages > 0
          then totalPriceOf messages / ((foundProducts messages).length : Rat) else 100) ∧
      fallbackItems messages = (foundProducts messages).map fun itm =>
        RawItem.record (some (.vStr itm.name)) (some (.vInt (itm.qty : Int)))
          (some (.vFloat (if 0 < itm.qty then pyRound2 (slotShare messages / (itm.qty : Rat))
            else slotShare messages))) := by
  intro messages h
  refine ⟨rfl, ?_⟩
  unfold fallbackItems
  rw [if_neg (by simpa [List.isEmpty_iff] using h)]

theorem fallback_distribution_witness :
    fallbackItems ["2 pizza".toList] = (foundProducts ["2 pizza".toList]).map fun itm =>
      RawItem.record (some (.vStr itm.name)) (some (.vInt (itm.qty : Int)))
        (some (.vFloat (if 0 < itm.qty then pyRound2 (slotShare ["2 pizza".toList] / (itm.qty : Rat))
          else slotShare ["2 pizza".toList]))) :=
  (fallback_distribution_amended ["2 pizza".toList] (by decide)).2

/-- C6 (confirmed): on a name collision the stored price is replaced only
by a strictly positive new price — with two same-named entries the result
is one item with summed quantity and price `p₂` if `p₂ > 0`, else `p₁`; in
particular an earlier 120 survives a later 0. -/
theorem dedupe_price_override :
    ∀ (s : List Char) (q1 q2 : Int) (p1 p2 : Rat),
      dedupe [RawItem.record (some (.vStr s)) (some (.vInt q1)) (some (.vFloat p1)),
              RawItem.record (some (.vStr s)) (some (.vInt q2)) (some (.vFloat p2))] =
        .ok [⟨pyTitle (pyStrip s), q1 + q2, if p2 > 0 then p2 else p1⟩] := by
  intro s q1 q2 p1 p2
  have hc1 : coerceEntry (RawItem.record (some (.vStr s)) (some (.vInt q1)) (some (.vFloat p1)))
      = .ok (some (pyTitle (pyStrip s), q1, p1)) := rfl
  have hc2 : coerceEntry (RawItem.record (some (.vStr s)) (some (.vInt q2)) (some (.vFloat p2)))
      = .ok (some (pyTitle (pyStrip s), q2, p2)) := rfl
  unfold dedupe
  rw [dedupeAux_cons_new hc1
    [RawItem.record (some (.vStr s)) (some (.vInt q2)) (some (.vFloat p2))] [] rfl]
  rw [List.nil_append]
  rw [dedupeAux_cons_hit hc2 [] [⟨pyTitle (pyStrip s), q1, p1⟩] (by simp)]
  simp [dedupeAux, updEntry]

/-- C7 (confirmed): quantity conservation — every line item in a successful
dedup result carries exactly the sum of the coerced quantities of the raw
entries whose normalized name equals its name. -/
theorem dedupe_quantity_conservation :
    ∀ (raws : List RawItem) (out : List Item), dedupe raws = .ok out →
      ∀ it ∈ out, it.quantity = (raws.map (contribQty it.item)).sum := by
  intro raws out h it hit
  have hq := dedupeAux_qty raws [] out (by simp) h it hit
  simpa [accQty] using hq

theorem dedupe_quantity_conservation_witness :
    (Item.mk "A".toList 5 120).quantity =
      ([RawItem.record (some (.vStr "A".toList)) (some (.vInt 2)) (some (.vFloat 120)),
        RawItem.record (some (.vStr "a".toList)) (some (.vInt 3)) (some (.vFloat 0))].map
          (contribQty (Item.mk "A".toList 5 120).item)).sum :=
  dedupe_quantity_conservation
    [RawItem.record (some (.vStr "A".toList)) (some (.vInt 2)) (some (.vFloat 120)),
     RawItem.record (some (.vStr "a".toList)) (some (.vInt 3)) (some (.vFloat 0))]
    [Item.mk "A".toList 5 120] rfl (Item.mk "A".toList 5 120) (by simp)

/-- C8 (confirmed): deduplication is idempotent — feeding a successful
dedup output (as raw dicts) back through dedup returns it unchanged: same
items, names, quantities, prices and order. -/
theorem dedupe_idempotent :
    ∀ (raws : List RawItem) (out : List Item), dedupe raws = .ok out →
      dedupe (out.map rawOfItem) = .ok out :=
  fun _ _ h => dedupe_replay_eq h

theorem dedupe_idempotent_witness :
    dedupe ([Item.mk "Pizza".toList 3 50].map rawOfItem) = .ok [Item.mk "Pizza".toList 3 50] :=
  dedupe_idempotent
    [RawItem.record (some (.vStr "pizza".toList)) (some (.vInt 1)) (some (.vFloat 50)),
     RawItem.record (some (.vStr "Pizza".toList)) (some (.vInt 2)) (some (.vFloat 0))]
    [Item.mk "Pizza".toList 3 50] rfl

/-- C9 (confirmed): on `["2 pizza", "3 coke"]` with "total 500 rs" in
another message, the fallback finds 2 extraction slots and an aggregate
price of 500, each slot's share is 250, and the produced unit prices are
125.00 for pizza and 83.33 for coke. -/
theorem fallback_distribution_example :
    foundProducts ["2 pizza".toList, "3 coke".toList, "total 500 rs".toList]
        = [⟨"Pizza".toList, 2⟩, ⟨"Coke".toList, 3⟩] ∧
    (foundProducts ["2 pizza".toList, "3 coke".toList, "total 500 rs".toList]).length = 2 ∧
    totalPriceOf ["2 pizza".toList, "3 coke".toList, "total 500 rs".toList] = 500 ∧
    slotShare ["2 pizza".toList, "3 coke".toList, "total 500 rs".toList] = 250 ∧
    fallbackItems ["2 pizza".toList, "3 coke".toList, "total 500 rs".toList] =
      [RawItem.record (some (.vStr "Pizza".toList)) (some (.vInt 2)) (some (.vFloat 125)),
       RawItem.record (some (.vStr "Coke".toList)) (some (.vInt 3)) (some (.vFloat (8333/100)))] :=
  ⟨rfl, rfl, rfl, rfl, rfl⟩

/-- C10 (confirmed): the fallback trigger is the pre-dedup `items` list —
a non-empty AI result of non-dict values skips the fallback and every entry
is then dropped in dedup, returning an empty result, even though the
fallback would have extracted an item from the same messages. -/
theorem fallback_trigger_pre_dedup :
    parse_chats (some "k".toList) [RawItem.atom (.vInt 42)] ["2 pizza".toList] = .ok [] ∧
    dedupe (fallbackItems ["2 pizza".toList]) = .ok [Item.mk "Pizza".toList 2 50] :=
  ⟨rfl, rfl⟩

end ConcreteEvaluation

end ChatParser
